import Mathlib

/-!
Verification of the mini-react reconciliation core
(`src/React/mini-react/src/*.js`, scheduler and fiber modules).

Each section shallowly embeds one source module:
* `Sched`   — the task scheduler (`scheduler.js`: `insertTask`, `flushWork`).
* `Hooks`   — the hook store (`hooks.js`: `useState`, `useEffect`, `useRef`,
              `flushEffects`).
* `Recon`   — the reconciler (`reconciler.js`: `reconcileChildren`,
              `workLoop`, `commitWork`, `scheduleUpdate`) together with the
              host-call trace of an initial mount (`fiber.js`: `createDom`).

Definitions mirror the JavaScript control flow; theorems settle the spec's
claims about them.
-/

namespace Sched

/-- A scheduler task: `{callback, priority, startTime}` from `scheduleCallback`.
The callback itself is irrelevant to ordering; `arrival` records the order in
which `scheduleCallback` was called (tasks are created one at a time, so
arrival indices are strictly increasing). -/
structure Task where
  priority : Nat
  arrival : Nat
deriving DecidableEq, Repr

/-- `insertTask` from `scheduler.js`: advance past every queued task whose
priority is `≤` the new task's priority, then splice the new task in. -/
def insertTask (t : Task) : List Task → List Task
  | [] => [t]
  | q :: qs => if q.priority ≤ t.priority then q :: insertTask t qs else t :: q :: qs

/-- Enqueue a batch of tasks one at a time, as successive `scheduleCallback`
calls do. -/
def enqueueAll (ts : List Task) (q : List Task) : List Task :=
  ts.foldl (fun acc t => insertTask t acc) q

/-- Build the tasks for a list of priorities, assigning arrival order `i, i+1, …`
(the order the `scheduleCallback` calls happen). -/
def mkTasks : Nat → List Nat → List Task
  | _, [] => []
  | i, p :: ps => ⟨p, i⟩ :: mkTasks (i + 1) ps

/-- The queue the scheduler holds after scheduling the given priorities into an
empty queue. -/
def scheduleAll (ps : List Nat) : List Task :=
  enqueueAll (mkTasks 0 ps) []

/-- `flushWork` from `scheduler.js` repeatedly `shift`s the front task and runs
its callback; with run-to-completion callbacks the execution order is exactly
the queue front-to-back. -/
def flushWork : List Task → List Task
  | [] => []
  | t :: rest => t :: flushWork rest

/-- The order in which the scheduler executes tasks scheduled at the given
priorities. -/
def executionOrder (ps : List Nat) : List Task :=
  flushWork (scheduleAll ps)

/-- The scheduler's intended ordering: lower priority first, ties broken by
arrival order. -/
def taskBefore (a b : Task) : Prop :=
  a.priority < b.priority ∨ (a.priority = b.priority ∧ a.arrival < b.arrival)

instance : DecidableRel taskBefore := fun a b => by
  unfold taskBefore; infer_instance

theorem flushWork_eq (q : List Task) : flushWork q = q := by
  induction q with
  | nil => rfl
  | cons t rest ih => simp [flushWork, ih]

theorem insertTask_perm (t : Task) (q : List Task) :
    List.Perm (insertTask t q) (t :: q) := by
  induction q with
  | nil => rfl
  | cons u us ih =>
    by_cases h : u.priority ≤ t.priority
    · simp only [insertTask, if_pos h]
      exact (ih.cons u).trans (List.Perm.swap _ _ _)
    · simp only [insertTask, if_neg h]
      exact List.Perm.refl _

theorem mem_insertTask {t u : Task} {q : List Task} (h : u ∈ insertTask t q) :
    u = t ∨ u ∈ q := by
  have := (insertTask_perm t q).mem_iff.mp h
  simpa using this

theorem insertTask_pairwise (t : Task) (q : List Task)
    (hq : q.Pairwise taskBefore) (ha : ∀ u ∈ q, u.arrival < t.arrival) :
    (insertTask t q).Pairwise taskBefore := by
  induction q with
  | nil => simp [insertTask]
  | cons u us ih =>
    rcases List.pairwise_cons.mp hq with ⟨hu, hus⟩
    by_cases h : u.priority ≤ t.priority
    · simp only [insertTask, if_pos h]
      refine List.pairwise_cons.mpr ⟨?_, ?_⟩
      · intro v hv
        rcases mem_insertTask hv with rfl | hv'
        · rcases Nat.lt_or_ge u.priority v.priority with hlt | hge
          · exact Or.inl hlt
          · exact Or.inr ⟨Nat.le_antisymm h hge, ha u (List.mem_cons_self u us)⟩
        · exact hu v hv'
      · exact ih hus (fun v hv => ha v (List.mem_cons_of_mem u hv))
    · simp only [insertTask, if_neg h]
      have ht : t.priority < u.priority := Nat.lt_of_not_le h
      refine List.pairwise_cons.mpr ⟨?_, hq⟩
      intro v hv
      rcases List.mem_cons.mp hv with rfl | hv'
      · exact Or.inl ht
      · refine Or.inl (Nat.lt_of_lt_of_le ht ?_)
        rcases hu v hv' with h1 | ⟨h2, _⟩
        · exact Nat.le_of_lt h1
        · exact Nat.le_of_eq h2

theorem enqueueAll_perm (ts : List Task) (q : List Task) :
    List.Perm (enqueueAll ts q) (ts ++ q) := by
  induction ts generalizing q with
  | nil => simp [enqueueAll]
  | cons t ts ih =>
    have h1 : List.Perm (enqueueAll ts (insertTask t q)) (ts ++ insertTask t q) := ih _
    have h2 : List.Perm (ts ++ insertTask t q) (ts ++ t :: q) :=
      List.Perm.append_left ts (insertTask_perm t q)
    have h3 : List.Perm (ts ++ t :: q) (t :: (ts ++ q)) := List.perm_middle
    exact (h1.trans h2).trans h3

theorem enqueueAll_pairwise (ts : List Task) (q : List Task)
    (hq : q.Pairwise taskBefore)
    (hmix : ∀ u ∈ q, ∀ t ∈ ts, u.arrival < t.arrival)
    (hts : ts.Pairwise (fun a b => a.arrival < b.arrival)) :
    (enqueueAll ts q).Pairwise taskBefore := by
  induction ts generalizing q with
  | nil => simpa [enqueueAll] using hq
  | cons t ts ih =>
    rcases List.pairwise_cons.mp hts with ⟨hta, hts'⟩
    refine ih (insertTask t q)
      (insertTask_pairwise t q hq
        (fun u hu => hmix u hu t (List.mem_cons_self t ts))) ?_ hts'
    intro u hu t' ht'
    rcases mem_insertTask hu with rfl | hu'
    · exact hta t' ht'
    · exact hmix u hu' t' (List.mem_cons_of_mem t ht')

theorem mkTasks_arrival_ge : ∀ (ps : List Nat) (i : Nat),
    ∀ t ∈ mkTasks i ps, i ≤ t.arrival := by
  intro ps
  induction ps with
  | nil => intro i t ht; simp [mkTasks] at ht
  | cons p ps ih =>
    intro i t ht
    rcases List.mem_cons.mp ht with rfl | ht'
    · exact Nat.le_refl _
    · exact Nat.le_of_succ_le (ih (i + 1) t ht')

theorem mkTasks_pairwise : ∀ (ps : List Nat) (i : Nat),
    (mkTasks i ps).Pairwise (fun a b => a.arrival < b.arrival) := by
  intro ps
  induction ps with
  | nil => intro i; simp [mkTasks]
  | cons p ps ih =>
    intro i
    refine List.pairwise_cons.mpr ⟨?_, ih (i + 1)⟩
    intro t ht
    exact Nat.lt_of_succ_le (mkTasks_arrival_ge ps (i + 1) t ht)

theorem mkTasks_map_priority : ∀ (ps : List Nat) (i : Nat),
    (mkTasks i ps).map Task.priority = ps := by
  intro ps
  induction ps with
  | nil => intro i; rfl
  | cons p ps ih => intro i; simp [mkTasks, ih]

end Sched

namespace Hooks

/-- A pending update enqueued by a state setter: either a replacement value or
an old→new function (`typeof action === 'function'` in `useState`). -/
inductive Update (σ : Type) where
  | set (v : σ)
  | fn (f : σ → σ)

/-- The body of `actions.forEach` in `useState`: a function update is applied
to the accumulator, a value update replaces it. -/
def applyAction {σ : Type} (s : σ) (a : Update σ) : σ :=
  match a with
  | .fn f => f s
  | .set v => v

/-- A state hook slot `{state, queue}` as stored in `fiber.hooks`. -/
structure StateHook (σ : Type) where
  state : σ
  queue : List (Update σ)

/-- The setter returned by `useState`: `hook.queue.push(action)` (it also calls
`scheduleUpdate`, modelled separately in `Recon`). -/
def setState {σ : Type} (h : StateHook σ) (a : Update σ) : StateHook σ :=
  { h with queue := h.queue ++ [a] }

/-- `useState` from `hooks.js`, per slot: read the old hook from
`alternate.hooks[hookIndex]` if present, start from its state (else the initial
value), apply its queued actions in order, and store a hook with an empty
queue. -/
def useStateStep {σ : Type} (oldHook : Option (StateHook σ)) (initial : σ) :
    StateHook σ :=
  let base := match oldHook with | some oh => oh.state | none => initial
  let actions := match oldHook with | some oh => oh.queue | none => []
  { state := actions.foldl applyAction base, queue := [] }

theorem setState_foldl {σ : Type} (s : σ) (q : List (Update σ))
    (us : List (Update σ)) :
    us.foldl setState ⟨s, q⟩ = ⟨s, q ++ us⟩ := by
  induction us generalizing q with
  | nil => simp
  | cons u us ih =>
    simp only [List.foldl_cons, setState, ih]
    simp

/-- An effect hook slot `{effect, deps, cleanup}` as stored in `fiber.hooks`.
`eff` abstracts the effect callback as an id; `cleanup` is the stored cleanup
thunk, abstracted by what invoking it does: `.ok ()` returns normally,
`.error m` throws `m`. -/
structure EffectHook (V : Type) where
  eff : Nat
  deps : Option (List V)
  cleanup : Option (Except String Unit)
deriving Repr

/-- `deps.every((dep, i) => dep === oldHook.deps[i])` — element-wise identity
comparison over the indices of the new dependency list, with out-of-range
lookups comparing unequal. -/
def everyDepSame {V : Type} [DecidableEq V] (ds olds : List V) : Bool :=
  (List.range ds.length).all (fun i => olds.get? i == ds.get? i)

/-- `useEffect` from `hooks.js`, per slot. Computes `hasChanged`
(`oldHook ? !deps || !deps.every(...) : true`), builds the new hook carrying
`oldHook?.cleanup`, and on change first invokes the previous cleanup — an
exception thrown there escapes the hook uncaught (`.error`) — then queues the
effect. Returns the stored hook and whether the effect was queued. -/
def useEffectStepE {V : Type} [DecidableEq V] (oldHook : Option (EffectHook V))
    (eff : Nat) (deps : Option (List V)) :
    Except String (EffectHook V × Bool) :=
  let hasChanged : Bool :=
    match oldHook with
    | none => true
    | some oh =>
      match deps with
      | none => true
      | some ds => !(everyDepSame ds (oh.deps.getD []))
  let carried : Option (Except String Unit) :=
    oldHook.bind EffectHook.cleanup
  if hasChanged then
    match carried with
    | some (.error m) => .error m
    | _ => .ok (⟨eff, deps, carried⟩, true)
  else
    .ok (⟨eff, deps, carried⟩, false)

/-- The caller contract the spec imposes on dependency lists: if both the old
hook and a new dependency list are present, the old slot holds a dependency
list of the same length. -/
def depsCompatible {V : Type} (oldHook : Option (EffectHook V))
    (deps : Option (List V)) : Prop :=
  ∀ oh ds, oldHook = some oh → deps = some ds →
    ∃ ods, oh.deps = some ods ∧ ods.length = ds.length

/-- The stored cleanup of the old slot, if any, does not throw when invoked. -/
def cleanupOk {V : Type} (oldHook : Option (EffectHook V)) : Prop :=
  ∀ oh m, oldHook = some oh → oh.cleanup ≠ some (.error m)

theorem everyDepSame_false_iff {V : Type} [DecidableEq V] (ds ods : List V) :
    everyDepSame ds ods = false ↔ ∃ i, i < ds.length ∧ ds.get? i ≠ ods.get? i := by
  unfold everyDepSame
  rw [Bool.eq_false_iff, ne_eq, List.all_eq_true]
  push_neg
  constructor
  · rintro ⟨i, hi, hne⟩
    refine ⟨i, List.mem_range.mp hi, fun h => hne ?_⟩
    simp only [List.get?_eq_getElem?] at h
    simp [h]
  · rintro ⟨i, hi, hne⟩
    exact ⟨i, List.mem_range.mpr hi, fun h => hne ((beq_iff_eq.mp h).symm)⟩

/-- A ref box: `{ current: ... }`. `boxId` makes object identity observable:
each evaluation of the object literal in `useRef` allocates a fresh id. -/
structure RefBox (α : Type) where
  boxId : Nat
  current : α
deriving DecidableEq, Repr

/-- `useRef` from `hooks.js`, per slot: build a NEW object
`{ current: oldHook ? oldHook.current : initialValue }` and store it. `alloc`
is the allocator counter (strictly above every previously allocated id);
returns the stored box and the advanced counter. -/
def useRefStep {α : Type} (alloc : Nat) (oldHook : Option (RefBox α))
    (initial : α) : RefBox α × Nat :=
  (⟨alloc, match oldHook with | some oh => oh.current | none => initial⟩,
   alloc + 1)

/-- One queued post-commit effect for `flushEffects`: its id and what invoking
it does (`.ok` = returns, `.error m` = throws `m`). -/
structure QueuedEffect where
  id : Nat
  run : Except String Unit
deriving Repr

/-- `flushEffects` from `hooks.js`: `shift` each queued effect in order and
invoke it inside try/catch; a thrown exception is logged
(`console.error('Effect error:', ...)`) and the loop continues. Returns the
ids of the effects that were invoked and the logged errors, in order. -/
def flushEffects : List QueuedEffect → List Nat × List (Nat × String)
  | [] => ([], [])
  | e :: rest =>
    let (ex, lg) := flushEffects rest
    match e.run with
    | .ok _ => (e.id :: ex, lg)
    | .error m => (e.id :: ex, (e.id, m) :: lg)

end Hooks

namespace Recon

/-- A host-adapter call, in the spec's host-interface vocabulary. Handles are
numbers; the container is handle `0` and fresh instances get `1, 2, …` in
allocation order. -/
inductive HostCall where
  | createHost (tag : String) (handle : Nat)
  | createText (value : String) (handle : Nat)
  | appendChild (parent : Nat) (child : Nat)
deriving DecidableEq, Repr

/-- A descriptor (virtual-DOM) tree for host nodes, as fed to `render`. Text
leaves are the `TEXT_ELEMENT`s `createElement` produces, with their
`nodeValue`. -/
inductive Desc where
  | host (tag : String) (children : List Desc)
  | text (value : String)
deriving Repr

mutual
/-- Render-phase host calls of an initial mount. `performUnitOfWork` visits
fibers depth-first (child before sibling, i.e. preorder) and
`updateHostComponent` calls `createDom` for each fiber whose `dom` is null —
on a fresh mount, every one. `createDom` emits `createTextInstance(nodeValue)`
for a `TEXT_ELEMENT` and `createHostInstance(tag)` otherwise. `n` is the next
free handle; returns the calls and the advanced handle counter. -/
def createCalls : Nat → Desc → List HostCall × Nat
  | n, .host tag cs =>
    let (rest, n') := createCallsList (n + 1) cs
    (HostCall.createHost tag n :: rest, n')
  | n, .text v => ([HostCall.createText v n], n + 1)

def createCallsList : Nat → List Desc → List HostCall × Nat
  | n, [] => ([], n)
  | n, d :: ds =>
    let (c1, n1) := createCalls n d
    let (c2, n2) := createCallsList n1 ds
    (c1 ++ c2, n2)
end

mutual
/-- Commit-phase host calls of an initial mount. `commitWork` walks the new
tree preorder (self, then child, then sibling); every fiber carries
`PLACEMENT` with a non-null `dom`, so each visit emits
`appendChild(parentDom, dom)` before its children are visited. Handles are
assigned in the same preorder as `createCalls`. -/
def appendCalls : Nat → Nat → Desc → List HostCall × Nat
  | parentDom, n, .host _ cs =>
    let (rest, n') := appendCallsList n (n + 1) cs
    (HostCall.appendChild parentDom n :: rest, n')
  | parentDom, n, .text _ => ([HostCall.appendChild parentDom n], n + 1)

def appendCallsList : Nat → Nat → List Desc → List HostCall × Nat
  | _, n, [] => ([], n)
  | parentDom, n, d :: ds =>
    let (c1, n1) := appendCalls parentDom n d
    let (c2, n2) := appendCallsList parentDom n1 ds
    (c1 ++ c2, n2)
end

/-- The full host-call trace of `render(element, container)` on an empty
container, in order: the work loop runs every unit (creating instances in
preorder), then `commitRoot` walks `wipRoot.child` appending under the nearest
ancestor dom — the container, handle `0`, for the root element. -/
def mountTrace (d : Desc) : List HostCall :=
  (createCalls 1 d).1 ++ (appendCalls 0 1 d).1

/-- An old fiber in the previous committed child chain, as `reconcileChildren`
sees it through `wipFiber.alternate.child` and `.sibling`. `id` identifies the
fiber (so deletions can be traced to a concrete occupant). -/
structure OldFiber where
  id : Nat
  type : String
  props : Nat
deriving DecidableEq, Repr

/-- A new child descriptor, as produced by the parent's render. -/
structure Elem where
  type : String
  props : Nat
deriving DecidableEq, Repr

/-- The descriptor a previously committed fiber corresponds to (same type and
props). -/
def toElem (o : OldFiber) : Elem := ⟨o.type, o.props⟩

/-- Effect tags from `fiber.js` (`EFFECT_TAGS`). -/
inductive Tag where
  | PLACEMENT
  | UPDATE
  | DELETION
deriving DecidableEq, Repr

/-- A fiber of the work-in-progress child chain built by `reconcileChildren`. -/
structure NewFiber where
  type : String
  props : Nat
  tag : Tag
  alternate : Option Nat
deriving DecidableEq, Repr

/-- `reconcileChildren` from `reconciler.js`: walk the new element list and the
old sibling chain in lockstep. Same type ⇒ an `UPDATE` fiber reusing the old
fiber (its `alternate`); element without matching old ⇒ a `PLACEMENT` fiber
with no alternate; old without matching element ⇒ the old fiber is tagged
`DELETION` and pushed (in index order) onto the deletion list. Returns the new
child chain and the deletions. -/
def reconcile : List Elem → List OldFiber → List NewFiber × List OldFiber
  | [], olds => ([], olds)
  | e :: es, [] =>
    let (ns, ds) := reconcile es []
    (⟨e.type, e.props, Tag.PLACEMENT, none⟩ :: ns, ds)
  | e :: es, o :: os =>
    let (ns, ds) := reconcile es os
    if e.type == o.type then
      (⟨o.type, e.props, Tag.UPDATE, some o.id⟩ :: ns, ds)
    else
      (⟨e.type, e.props, Tag.PLACEMENT, none⟩ :: ns, o :: ds)

/-- `workLoop` composed with the scheduler's turn (`flushWork`). A pending
unit is abstracted by what `performUnitOfWork` does on it: `.ok d` completes
normally taking `d` ms, `.error m` throws `m` (a component body throwing).
State: remaining units (`nextUnitOfWork` chain), elapsed ms this turn, and
whether `wipRoot` is set. `workLoopAux` mirrors
`while (nextUnitOfWork) { nextUnitOfWork = performUnitOfWork(nextUnitOfWork) }`
— it contains NO yield check — followed by
`if (!nextUnitOfWork && wipRoot) commitRoot()`. Result: the state after the
call (pending units, elapsed, wipRoot, whether `commitRoot` ran) plus the
uncaught exception if a unit threw. -/
def workLoopAux :
    List (Except String Nat) → Nat → Bool →
      (List (Except String Nat) × Nat × Bool × Bool) × Option String
  | [], e, wip => (([], e, false, wip), none)
  | .error m :: rest, e, wip => ((.error m :: rest, e, wip, false), some m)
  | .ok d :: rest, e, wip => workLoopAux rest (e + d) wip

/-- `TIME_SLICE` from `scheduler.js`: the fixed slice budget in ms. -/
def TIME_SLICE : Nat := 5

/-- The scheduler turn running `workLoop`: `flushWork` invokes the task inside
try/catch; an exception is logged (`console.error('Scheduler error:', ...)`)
and the turn returns normally. Returns the reconciler state after the turn and
the logged messages. -/
def flushWorkTurn (pending : List (Except String Nat)) (wip : Bool) :
    (List (Except String Nat) × Nat × Bool × Bool) × List String :=
  let (st, err) := workLoopAux pending 0 wip
  (st, err.toList)

/-- The root fiber data `scheduleUpdate` copies out of `currentRoot`. -/
structure RootFiber where
  dom : Nat
  props : Nat
deriving DecidableEq, Repr

/-- The reconciler module state: `currentRoot`, `wipRoot`, `nextUnitOfWork`
(abstracted to whether it points at the wip root), `deletions`, and the
scheduler's task queue with its arrival counter. -/
structure RState where
  currentRoot : Option RootFiber
  wipRoot : Option RootFiber
  nextUnitOfWork : Option RootFiber
  deletions : List OldFiber
  taskQueue : List Sched.Task
  nextArrival : Nat
deriving DecidableEq, Repr

/-- `scheduleUpdate` from `reconciler.js`: if `currentRoot` is set, build a new
`wipRoot` from it, point `nextUnitOfWork` at it, reset `deletions`, and
`scheduleCallback(workLoop)` (default priority 0); otherwise do nothing. -/
def scheduleUpdate (s : RState) : RState :=
  match s.currentRoot with
  | none => s
  | some cr =>
    { s with
      wipRoot := some ⟨cr.dom, cr.props⟩
      nextUnitOfWork := some ⟨cr.dom, cr.props⟩
      deletions := []
      taskQueue := Sched.insertTask ⟨0, s.nextArrival⟩ s.taskQueue
      nextArrival := s.nextArrival + 1 }

end Recon

namespace Recon

theorem workLoopAux_oks (ds : List Nat) (e : Nat) (wip : Bool) :
    workLoopAux (ds.map Except.ok) e wip = (([], e + ds.sum, false, wip), none) := by
  induction ds generalizing e with
  | nil => simp [workLoopAux]
  | cons d ds ih =>
    simp only [List.map_cons, workLoopAux, ih, List.sum_cons, Nat.add_assoc]

theorem workLoopAux_oks_then_error (ds : List Nat) (m : String)
    (post : List (Except String Nat)) (e : Nat) (wip : Bool) :
    workLoopAux (ds.map Except.ok ++ Except.error m :: post) e wip
      = ((Except.error m :: post, e + ds.sum, wip, false), some m) := by
  induction ds generalizing e with
  | nil => simp [workLoopAux]
  | cons d ds ih =>
    simp only [List.map_cons, List.cons_append, workLoopAux, List.append_eq, ih,
      List.sum_cons, Nat.add_assoc]

theorem reconcile_tail_uniform (olds : List OldFiber) (t : String)
    (hne : olds ≠ []) (ht : ∀ o ∈ olds, o.type = t) :
    ((reconcile ((olds.map toElem).tail) olds).1.map NewFiber.tag
        = List.replicate (olds.length - 1) Tag.UPDATE)
      ∧ (reconcile ((olds.map toElem).tail) olds).2 = olds.getLast?.toList := by
  induction olds with
  | nil => exact absurd rfl hne
  | cons o os ih =>
    cases os with
    | nil => simp [reconcile, toElem]
    | cons o' os' =>
      have hto : o.type = t := ht o (List.mem_cons_self _ _)
      have hto' : o'.type = t := ht o' (List.mem_cons_of_mem _ (List.mem_cons_self _ _))
      have hbeq : ((toElem o').type == o.type) = true := by
        simp [toElem, hto, hto']
      have ih' := ih (List.cons_ne_nil o' os')
        (fun x hx => ht x (List.mem_cons_of_mem _ hx))
      simp only [List.map_cons, List.tail_cons] at ih' ⊢
      simp only [reconcile, hbeq, if_pos]
      constructor
      · simp only [List.map_cons, ih'.1, List.length_cons, Nat.add_sub_cancel]
        rw [List.replicate_succ]
      · rw [ih'.2, List.getLast?_cons_cons]

theorem reconcile_eraseIdx_uniform (olds : List OldFiber) (p : Nat) (t : String)
    (hp : p < olds.length) (ht : ∀ o ∈ olds.drop p, o.type = t) :
    ((reconcile ((olds.map toElem).eraseIdx p) olds).1.map NewFiber.tag
        = List.replicate (olds.length - 1) Tag.UPDATE)
      ∧ (reconcile ((olds.map toElem).eraseIdx p) olds).2 = olds.getLast?.toList := by
  induction p generalizing olds with
  | zero =>
    cases olds with
    | nil => simp at hp
    | cons o os =>
      have := reconcile_tail_uniform (o :: os) t (List.cons_ne_nil o os)
        (by simpa using ht)
      simpa [List.eraseIdx] using this
  | succ p ih =>
    cases olds with
    | nil => simp at hp
    | cons o os =>
      have hp' : p < os.length := by simpa using hp
      have ht' : ∀ x ∈ os.drop p, x.type = t := by
        intro x hx
        exact ht x (by simpa using hx)
      have ih' := ih os hp' ht'
      have hbeq : ((toElem o).type == o.type) = true := by simp [toElem]
      simp only [List.map_cons, List.eraseIdx_cons_succ, reconcile, hbeq, if_pos]
      constructor
      · simp only [List.map_cons, ih'.1, List.length_cons]
        have hlen : os.length + 1 - 1 = (os.length - 1) + 1 := by omega
        rw [hlen, List.replicate_succ]
      · rw [ih'.2]
        cases os with
        | nil => simp at hp'
        | cons o' os' => rw [List.getLast?_cons_cons]

end Recon

namespace Hooks

theorem flushEffects_ids (effs : List QueuedEffect) :
    (flushEffects effs).1 = effs.map QueuedEffect.id := by
  induction effs with
  | nil => rfl
  | cons e rest ih =>
    simp only [flushEffects, ih]
    cases e.run <;> rfl

theorem flushEffects_logs (effs : List QueuedEffect) :
    (flushEffects effs).2 = effs.filterMap
      (fun e => match e.run with
        | .error m => some (e.id, m)
        | .ok _ => none) := by
  induction effs with
  | nil => rfl
  | cons e rest ih =>
    simp only [flushEffects, List.filterMap_cons]
    cases h : e.run with
    | ok v => simp [h, ih]
    | error m => simp [h, ih]

end Hooks

/-- C1: the spec claims the work loop stops at the next fiber-unit boundary
once elapsed time exceeds the slice budget, yields, and resumes the remaining
units in a later turn. The code's `workLoop` contains no yield check: a single
invocation processes every remaining unit — regardless of how the elapsed time
compares to `TIME_SLICE` — and then commits. Concretely, three 10 ms units
(30 ms total against a 5 ms budget) are all processed and committed in one
turn, with nothing left to resume. -/
theorem Recon.workLoop_never_yields :
    (∀ (ds : List Nat) (e : Nat) (wip : Bool),
      Recon.workLoopAux (ds.map Except.ok) e wip = (([], e + ds.sum, false, wip), none))
    ∧ Recon.flushWorkTurn [Except.ok 10, Except.ok 10, Except.ok 10] true
        = (([], 30, false, true), [])
    ∧ Recon.TIME_SLICE < 30 := by
  refine ⟨Recon.workLoopAux_oks, ?_, by decide⟩
  rfl

/-- C2 (counterexample): mounting `div > text 'A'` into an empty container
does NOT produce the claimed order
`createHostInstance('div'), createTextInstance('A'), appendChild(div,text),
appendChild(container,div)`: `commitWork` visits the parent before its child,
so the div is appended to the container before the text is appended to the
div. -/
theorem Recon.mount_div_text_claimed_order_false :
    Recon.mountTrace (Recon.Desc.host "div" [Recon.Desc.text "A"])
      ≠ [Recon.HostCall.createHost "div" 1, Recon.HostCall.createText "A" 2,
         Recon.HostCall.appendChild 1 2, Recon.HostCall.appendChild 0 1] := by
  decide

/-- C2 (amended): mounting `{type:'div', children:[{type:'text', value:'A'}]}`
into an empty container produces exactly
`createHostInstance('div'), createTextInstance('A'),
appendChild(container,div), appendChild(div,text)`, in that order — commit
attaches parents before their children. -/
theorem Recon.mount_div_text_trace :
    Recon.mountTrace (Recon.Desc.host "div" [Recon.Desc.text "A"])
      = [Recon.HostCall.createHost "div" 1, Recon.HostCall.createText "A" 2,
         Recon.HostCall.appendChild 0 1, Recon.HostCall.appendChild 1 2] := by
  rfl

/-- C3: for a state-hook slot whose previous committed state is `s` and whose
pending queue holds the updates `us` enqueued (in order) via the slot's
setter, the state the hook returns on the next render is the left fold of
`us` over `s`: a value update replaces the accumulator, a function update is
applied to it. -/
theorem Hooks.useState_left_fold {σ : Type} (s : σ) (us : List (Hooks.Update σ))
    (initial : σ) :
    (Hooks.useStateStep (some (us.foldl Hooks.setState ⟨s, []⟩)) initial).state
      = us.foldl Hooks.applyAction s := by
  rw [Hooks.setState_foldl]
  rfl

/-- C4: `insertTask` keeps the queue ordered by ascending priority with ties
in arrival order, and `flushWork` executes the queue front-to-back, so any
batch of scheduled tasks executes in ascending priority order with equal
priorities in arrival order; in particular, priorities `[2,0,1]` execute as
`[0,1,2]`. -/
theorem Sched.scheduler_priority_order :
    (∀ ps : List Nat,
      (Sched.executionOrder ps).Pairwise Sched.taskBefore
        ∧ List.Perm ((Sched.executionOrder ps).map Sched.Task.priority) ps)
    ∧ (Sched.executionOrder [2, 0, 1]).map Sched.Task.priority = [0, 1, 2] := by
  constructor
  · intro ps
    constructor
    · rw [Sched.executionOrder, Sched.flushWork_eq]
      exact Sched.enqueueAll_pairwise _ _ List.Pairwise.nil (by simp)
        (Sched.mkTasks_pairwise ps 0)
    · rw [Sched.executionOrder, Sched.flushWork_eq, Sched.scheduleAll]
      have h := (Sched.enqueueAll_perm (Sched.mkTasks 0 ps) []).map Sched.Task.priority
      simpa [Sched.mkTasks_map_priority] using h
  · decide

/-- C5: for an effect-hook slot (under the caller contract that the old slot
holds a dependency list of the same length when both are present, and with a
previous cleanup that does not throw), the effect is queued after the render
iff the dependency list is omitted, or there is no prior slot, or some index
differs between the old and new dependency lists; when it is not queued, the
previous cleanup reference is carried forward unchanged. -/
theorem Hooks.useEffect_fires_iff {V : Type} [DecidableEq V]
    (oldHook : Option (Hooks.EffectHook V)) (eff : Nat) (deps : Option (List V))
    (hcompat : Hooks.depsCompatible oldHook deps)
    (hclean : Hooks.cleanupOk oldHook) :
    ∃ nh fired, Hooks.useEffectStepE oldHook eff deps = Except.ok (nh, fired)
      ∧ (fired = true ↔ (deps = none ∨ oldHook = none ∨
          ∃ ds ods, deps = some ds
            ∧ (∃ oh, oldHook = some oh ∧ oh.deps = some ods)
            ∧ ∃ i, i < ds.length ∧ ds.get? i ≠ ods.get? i))
      ∧ (fired = false → nh.cleanup = oldHook.bind Hooks.EffectHook.cleanup) := by
  cases oldHook with
  | none =>
    refine ⟨⟨eff, deps, none⟩, true, rfl, ?_, by simp⟩
    simp
  | some oh =>
    obtain ⟨oeff, odeps, ocl⟩ := oh
    cases deps with
    | none =>
      cases ocl with
      | none =>
        refine ⟨⟨eff, none, none⟩, true, rfl, ?_, by simp⟩
        simp
      | some c =>
        cases c with
        | ok u =>
          refine ⟨⟨eff, none, some (Except.ok u)⟩, true, rfl, ?_, by simp⟩
          simp
        | error m =>
          exact absurd rfl (hclean ⟨oeff, odeps, some (Except.error m)⟩ m rfl)
    | some ds =>
      obtain ⟨ods, hods, hlen⟩ :=
        hcompat ⟨oeff, odeps, ocl⟩ ds rfl rfl
      simp only at hods
      subst hods
      cases hev : Hooks.everyDepSame ds ods with
      | true =>
        refine ⟨⟨eff, some ds, ocl⟩, false, ?_, ?_, fun _ => rfl⟩
        · simp [Hooks.useEffectStepE, hev]
        · simp only [Bool.false_eq_true, false_iff]
          push_neg
          refine ⟨by simp, by simp, ?_⟩
          rintro ds' ods' hds' ⟨oh', hoh', hodeps'⟩ i hi
          obtain rfl : ds = ds' := Option.some.inj hds'
          obtain rfl : (⟨oeff, some ods, ocl⟩ : Hooks.EffectHook V) = oh' :=
            Option.some.inj hoh'
          obtain rfl : ods = ods' := Option.some.inj hodeps'
          have hall : ∀ x, x < ds.length → ods[x]? = ds[x]? := by
            simpa [Hooks.everyDepSame] using hev
          simpa [List.get?_eq_getElem?] using (hall i hi).symm
      | false =>
        cases ocl with
        | none =>
          refine ⟨⟨eff, some ds, none⟩, true, ?_, ?_, by simp⟩
          · simp [Hooks.useEffectStepE, hev]
          · simp only [true_iff]
            exact Or.inr (Or.inr ⟨ds, ods, rfl, ⟨⟨oeff, some ods, none⟩, rfl, rfl⟩,
              (Hooks.everyDepSame_false_iff ds ods).mp hev⟩)
        | some c =>
          cases c with
          | ok u =>
            refine ⟨⟨eff, some ds, some (Except.ok u)⟩, true, ?_, ?_, by simp⟩
            · simp [Hooks.useEffectStepE, hev]
            · simp only [true_iff]
              exact Or.inr (Or.inr ⟨ds, ods, rfl,
                ⟨⟨oeff, some ods, some (Except.ok u)⟩, rfl, rfl⟩,
                (Hooks.everyDepSame_false_iff ds ods).mp hev⟩)
          | error m =>
            exact absurd rfl
              (hclean ⟨oeff, some ods, some (Except.error m)⟩ m rfl)

/-- C5 witness: a concrete slot with previous deps `[1,2]`, new deps `[1,3]`,
and no stored cleanup satisfies the contract hypotheses, and the effect fires
(index 1 differs). -/
theorem Hooks.useEffect_fires_iff_witness :
    Hooks.depsCompatible
        (some (⟨7, some [1, 2], none⟩ : Hooks.EffectHook Nat)) (some [1, 3])
    ∧ Hooks.cleanupOk (some (⟨7, some [1, 2], none⟩ : Hooks.EffectHook Nat))
    ∧ (∃ nh fired,
        Hooks.useEffectStepE (some (⟨7, some [1, 2], none⟩ : Hooks.EffectHook Nat))
            8 (some [1, 3]) = Except.ok (nh, fired)
          ∧ (fired = true ↔ ((some [1, 3] : Option (List Nat)) = none ∨
              (some (⟨7, some [1, 2], none⟩ : Hooks.EffectHook Nat)) = none ∨
              ∃ ds ods, (some [1, 3] : Option (List Nat)) = some ds
                ∧ (∃ oh, (some (⟨7, some [1, 2], none⟩ : Hooks.EffectHook Nat)) = some oh
                    ∧ oh.deps = some ods)
                ∧ ∃ i, i < ds.length ∧ ds.get? i ≠ ods.get? i))
          ∧ (fired = false → nh.cleanup =
              (some (⟨7, some [1, 2], none⟩ : Hooks.EffectHook Nat)).bind
                Hooks.EffectHook.cleanup)) := by
  have hcompat : Hooks.depsCompatible
      (some (⟨7, some [1, 2], none⟩ : Hooks.EffectHook Nat)) (some [1, 3]) := by
    intro oh ds h1 h2
    injection h1 with h1
    injection h2 with h2
    subst h1; subst h2
    exact ⟨[1, 2], rfl, rfl⟩
  have hclean : Hooks.cleanupOk
      (some (⟨7, some [1, 2], none⟩ : Hooks.EffectHook Nat)) := by
    intro oh m h
    injection h with h
    subst h
    simp
  exact ⟨hcompat, hclean, Hooks.useEffect_fires_iff _ 8 _ hcompat hclean⟩

/-- C6 (counterexample): re-rendering `[div, span]` with position 0 removed
(new children `[span]`) produces a PLACEMENT (for the span element, whose type
does not match the old occupant `div` of its position) and TWO deletions
(`div` at position 0 and the old `span` at position 1) — not exactly one
DELETION with no PLACEMENTs. -/
theorem Recon.removal_claim_false :
    (Recon.reconcile
        ((([⟨0, "div", 0⟩, ⟨1, "span", 0⟩] : List Recon.OldFiber).map
            Recon.toElem).eraseIdx 0)
        [⟨0, "div", 0⟩, ⟨1, "span", 0⟩]).2.length = 2
    ∧ (Recon.reconcile
        ((([⟨0, "div", 0⟩, ⟨1, "span", 0⟩] : List Recon.OldFiber).map
            Recon.toElem).eraseIdx 0)
        [⟨0, "div", 0⟩, ⟨1, "span", 0⟩]).1.map Recon.NewFiber.tag
      = [Recon.Tag.PLACEMENT]
    ∧ ¬((Recon.reconcile
        ((([⟨0, "div", 0⟩, ⟨1, "span", 0⟩] : List Recon.OldFiber).map
            Recon.toElem).eraseIdx 0)
        [⟨0, "div", 0⟩, ⟨1, "span", 0⟩]).2.length = 1
      ∧ ∀ f ∈ (Recon.reconcile
          ((([⟨0, "div", 0⟩, ⟨1, "span", 0⟩] : List Recon.OldFiber).map
              Recon.toElem).eraseIdx 0)
          [⟨0, "div", 0⟩, ⟨1, "span", 0⟩]).1, f.tag ≠ Recon.Tag.PLACEMENT) := by
  decide

/-- C6 (amended): when every old child from position `p` onward has the same
type (so each shifted element matches the type of the slot it moves into),
removing the element at position `p` from an `N`-length children list yields
`N-1` UPDATE-tagged fibers (the cascading updates for the shifted positions),
no PLACEMENTs, and exactly one DELETION — for the prior occupant of the LAST
position, since positional matching shifts content left and drops the
trailing fiber. -/
theorem Recon.removal_one_deletion_uniform (olds : List Recon.OldFiber)
    (p : Nat) (t : String) (hp : p < olds.length)
    (ht : ∀ o ∈ olds.drop p, o.type = t) :
    ((Recon.reconcile ((olds.map Recon.toElem).eraseIdx p) olds).1.map
        Recon.NewFiber.tag
      = List.replicate (olds.length - 1) Recon.Tag.UPDATE)
    ∧ (Recon.reconcile ((olds.map Recon.toElem).eraseIdx p) olds).2
      = olds.getLast?.toList :=
  Recon.reconcile_eraseIdx_uniform olds p t hp ht

/-- C6 witness: removing position 1 from three same-typed `li` children gives
two UPDATEs and one DELETION (of the old last child, id 2). -/
theorem Recon.removal_one_deletion_uniform_witness :
    ((1 < ([⟨0, "li", 0⟩, ⟨1, "li", 1⟩, ⟨2, "li", 2⟩] : List Recon.OldFiber).length)
      ∧ ∀ o ∈ ([⟨0, "li", 0⟩, ⟨1, "li", 1⟩, ⟨2, "li", 2⟩] : List Recon.OldFiber).drop 1,
          o.type = "li")
    ∧ (((Recon.reconcile
          ((([⟨0, "li", 0⟩, ⟨1, "li", 1⟩, ⟨2, "li", 2⟩] : List Recon.OldFiber).map
              Recon.toElem).eraseIdx 1)
          [⟨0, "li", 0⟩, ⟨1, "li", 1⟩, ⟨2, "li", 2⟩]).1.map Recon.NewFiber.tag
        = List.replicate
            (([⟨0, "li", 0⟩, ⟨1, "li", 1⟩, ⟨2, "li", 2⟩] : List Recon.OldFiber).length - 1)
            Recon.Tag.UPDATE)
      ∧ (Recon.reconcile
          ((([⟨0, "li", 0⟩, ⟨1, "li", 1⟩, ⟨2, "li", 2⟩] : List Recon.OldFiber).map
              Recon.toElem).eraseIdx 1)
          [⟨0, "li", 0⟩, ⟨1, "li", 1⟩, ⟨2, "li", 2⟩]).2
        = ([⟨0, "li", 0⟩, ⟨1, "li", 1⟩, ⟨2, "li", 2⟩] : List Recon.OldFiber).getLast?.toList) :=
  ⟨⟨by decide, by decide⟩,
    Recon.removal_one_deletion_uniform _ 1 "li" (by decide) (by decide)⟩

/-- C7 (counterexample): the box object returned by the ref hook is NOT
identity-stable: `useRef` evaluates a fresh object literal
`{ current: oldHook ? oldHook.current : initialValue }` every render, so
render 2 returns a box with a different identity (`boxId`) than render 1 —
only the `current` value is carried over. -/
theorem Hooks.useRef_identity_false :
    ((Hooks.useRefStep (Hooks.useRefStep 0 none (5 : Nat)).2
        (some (Hooks.useRefStep 0 none (5 : Nat)).1) 5).1.boxId
      ≠ (Hooks.useRefStep 0 none (5 : Nat)).1.boxId)
    ∧ ((Hooks.useRefStep (Hooks.useRefStep 0 none (5 : Nat)).2
        (some (Hooks.useRefStep 0 none (5 : Nat)).1) 5).1.current
      = (Hooks.useRefStep 0 none (5 : Nat)).1.current) := by
  decide

/-- C7 (amended): on every re-render the ref hook allocates a fresh box — a
different object than the previous render's — but carries the previous box's
`current` value into it unchanged, regardless of the initial-value argument
(and of any dependencies, which `useRef` never consults). -/
theorem Hooks.useRef_value_stable_box_fresh {α : Type} (a : Nat)
    (oh : Hooks.RefBox α) (initial : α) (h : oh.boxId < a) :
    (Hooks.useRefStep a (some oh) initial).1.current = oh.current
    ∧ (Hooks.useRefStep a (some oh) initial).1.boxId = a
    ∧ (Hooks.useRefStep a (some oh) initial).1.boxId ≠ oh.boxId
    ∧ (Hooks.useRefStep a (some oh) initial).2 = a + 1 := by
  refine ⟨rfl, rfl, ?_, rfl⟩
  simp only [Hooks.useRefStep]
  omega

/-- C7 witness: with allocator counter 1 and a previous box `⟨0, 42⟩`, the
re-render returns a fresh box (id 1 ≠ 0) holding 42. -/
theorem Hooks.useRef_value_stable_box_fresh_witness :
    ((⟨0, 42⟩ : Hooks.RefBox Nat).boxId < 1)
    ∧ ((Hooks.useRefStep 1 (some (⟨0, 42⟩ : Hooks.RefBox Nat)) 7).1.current
        = (⟨0, 42⟩ : Hooks.RefBox Nat).current
      ∧ (Hooks.useRefStep 1 (some (⟨0, 42⟩ : Hooks.RefBox Nat)) 7).1.boxId = 1
      ∧ (Hooks.useRefStep 1 (some (⟨0, 42⟩ : Hooks.RefBox Nat)) 7).1.boxId
          ≠ (⟨0, 42⟩ : Hooks.RefBox Nat).boxId
      ∧ (Hooks.useRefStep 1 (some (⟨0, 42⟩ : Hooks.RefBox Nat)) 7).2 = 1 + 1) :=
  ⟨by decide, Hooks.useRef_value_stable_box_fresh 1 ⟨0, 42⟩ 7 (by decide)⟩

/-- C8 (counterexample): a component body throwing during render does NOT
surface synchronously to the triggering caller, and the in-progress tree is
NOT discarded: the exception propagates out of `workLoop` into `flushWork`'s
catch-all, which logs it (`'Scheduler error:'`) and returns normally, leaving
`wipRoot` set and `nextUnitOfWork` still pointing at the throwing fiber. (No
commit happens — that part of the claim holds.) -/
theorem Recon.render_throw_not_surfaced :
    Recon.flushWorkTurn [Except.error "boom"] true
      = (([Except.error "boom"], 0, true, false), ["boom"])
    ∧ (Recon.flushWorkTurn [Except.error "boom"] true).1.2.2.1 = true
    ∧ (Recon.flushWorkTurn [Except.error "boom"] true).1.2.2.2 = false
    ∧ (Recon.flushWorkTurn [Except.error "boom"] true).2 = ["boom"] :=
  ⟨rfl, rfl, rfl, rfl⟩

/-- C8 (amended): if a component body throws during render, the render pass
stops at the throwing unit with no commit (`commitRoot` is never reached, so
there is no partial commit); the exception propagates out of the work loop to
the scheduler turn, which catches and logs it instead of surfacing it to the
triggering caller; the work-in-progress root and next-unit pointer are left
pointing at the aborted render (they are discarded only when a later
render/schedule request overwrites them). -/
theorem Recon.render_throw_logged_no_commit (ds : List Nat) (m : String)
    (post : List (Except String Nat)) (wip : Bool) :
    Recon.flushWorkTurn (ds.map Except.ok ++ Except.error m :: post) wip
      = ((Except.error m :: post, ds.sum, wip, false), [m]) := by
  simp [Recon.flushWorkTurn, Recon.workLoopAux_oks_then_error]

/-- C9 (counterexample): a throwing CLEANUP is not caught per-effect: it is
invoked synchronously inside `useEffect` during render (outside any
try/catch), so the exception escapes the hook — and hence the component
render — rather than being logged and contained. -/
theorem Hooks.cleanup_throw_escapes :
    Hooks.useEffectStepE (V := Nat)
        (some ⟨7, some [], some (Except.error "cleanup boom")⟩) 8 none
      = Except.error "cleanup boom" := rfl

/-- C9 (amended): a queued post-commit EFFECT BODY that throws is caught for
that effect alone and logged by `flushEffects`, and every remaining queued
effect still runs (execution order is the full queue, logs are exactly the
failures); a throwing CLEANUP, by contrast, runs uncaught during render
inside `useEffect` and its exception escapes the hook. -/
theorem Hooks.effect_errors_isolated_cleanup_not :
    (∀ effs : List Hooks.QueuedEffect,
      (Hooks.flushEffects effs).1 = effs.map Hooks.QueuedEffect.id
        ∧ (Hooks.flushEffects effs).2 = effs.filterMap
            (fun e => match e.run with
              | .error m => some (e.id, m)
              | .ok _ => none))
    ∧ (∀ (eff : Nat) (ods : Option (List Nat)) (m : String),
        Hooks.useEffectStepE (V := Nat)
            (some ⟨0, ods, some (Except.error m)⟩) eff none
          = Except.error m) := by
  refine ⟨fun effs => ⟨Hooks.flushEffects_ids effs, Hooks.flushEffects_logs effs⟩, ?_⟩
  intro eff ods m
  rfl

/-- C10: calling `scheduleUpdate` before any tree has ever been committed
(`currentRoot` still null) is a complete no-op: the whole reconciler state —
`wipRoot`, `nextUnitOfWork`, `deletions`, the task queue and its arrival
counter — is returned unchanged. -/
theorem Recon.scheduleUpdate_noop_before_first_commit (s : Recon.RState)
    (h : s.currentRoot = none) : Recon.scheduleUpdate s = s := by
  unfold Recon.scheduleUpdate
  rw [h]

/-- C10 witness: a state with no committed root but leftover wip/deletion/task
state is returned exactly as it was. -/
theorem Recon.scheduleUpdate_noop_witness :
    ((⟨none, some ⟨1, 2⟩, some ⟨1, 2⟩, [⟨0, "div", 0⟩], [⟨0, 0⟩], 3⟩ :
        Recon.RState)).currentRoot = none
    ∧ Recon.scheduleUpdate
        (⟨none, some ⟨1, 2⟩, some ⟨1, 2⟩, [⟨0, "div", 0⟩], [⟨0, 0⟩], 3⟩ :
          Recon.RState)
      = (⟨none, some ⟨1, 2⟩, some ⟨1, 2⟩, [⟨0, "div", 0⟩], [⟨0, 0⟩], 3⟩ :
          Recon.RState) :=
  ⟨rfl, Recon.scheduleUpdate_noop_before_first_commit _ rfl⟩
